import Mathlib

/-!
Verification development for the bl-backup repository
(pull side: `pop/sftp_pull_to_zip.py`; push side: `push/push_archive_to_vm.py`).

The Python sources are shallowly embedded below.  Python strings are modelled
through their character lists (`String.data`), byte payloads as `List Nat`,
remote filesystem mutations as an explicit list of operations (`ROp`), and the
remote commands as functions over the observed exit status / stderr text of
the remote process.
-/

namespace BlBackup

/-! ## Character-level helpers for Python `str` operations -/

/-- Model of `p.replace("\\", "/")` (push script, `normalize_arcpath`, line 40). -/
def replaceBS (cs : List Char) : List Char :=
  cs.map (fun c => if c = '\\' then '/' else c)

/-- Model of the loop `while p.startswith("/") or p.startswith("./")`
(push script, lines 42-43): repeatedly drop a leading `/` or `./`. -/
def stripLead : List Char → List Char
  | '/' :: rest => stripLead rest
  | '.' :: '/' :: rest => stripLead rest
  | cs => cs

/-- Model of the Python test `"//" in p`. -/
def hasDD : List Char → Bool
  | [] => false
  | [_] => false
  | c :: c' :: rest => if c = '/' ∧ c' = '/' then true else hasDD (c' :: rest)

/-- Model of one `p.replace("//", "/")` pass: non-overlapping, left-to-right. -/
def replaceDD : List Char → List Char
  | [] => []
  | [c] => [c]
  | c :: c' :: rest =>
    if c = '/' ∧ c' = '/' then '/' :: replaceDD rest
    else c :: replaceDD (c' :: rest)

theorem replaceDD_length_le (cs : List Char) : (replaceDD cs).length ≤ cs.length := by
  induction cs using replaceDD.induct with
  | case1 => simp [replaceDD]
  | case2 c => simp [replaceDD]
  | case3 c c' rest h ih =>
    simp only [replaceDD, if_pos h, List.length_cons]
    omega
  | case4 c c' rest h ih =>
    simp only [replaceDD, if_neg h, List.length_cons]
    simp only [List.length_cons] at ih
    omega

theorem replaceDD_length_lt (cs : List Char) (h : hasDD cs = true) :
    (replaceDD cs).length < cs.length := by
  induction cs using replaceDD.induct with
  | case1 => simp [hasDD] at h
  | case2 c => simp [hasDD] at h
  | case3 c c' rest hdd ih =>
    have := replaceDD_length_le rest
    simp only [replaceDD, if_pos hdd, List.length_cons]
    omega
  | case4 c c' rest hdd ih =>
    have h' : hasDD (c' :: rest) = true := by
      simpa [hasDD, if_neg hdd] using h
    have := ih h'
    simp only [replaceDD, if_neg hdd, List.length_cons]
    simp only [List.length_cons] at this
    omega

/-- Fuelled form of the loop `while "//" in p: p = p.replace("//", "/")`:
every pass through a string containing `"//"` strictly shortens it, so
`cs.length` passes always reach the fixpoint. -/
def collapseLoopF : Nat → List Char → List Char
  | 0, cs => cs
  | fuel + 1, cs => if hasDD cs then collapseLoopF fuel (replaceDD cs) else cs

/-- Model of the loop `while "//" in p: p = p.replace("//", "/")`
(push script, lines 45-46). -/
def collapseLoop (cs : List Char) : List Char :=
  collapseLoopF cs.length cs

/-- Direct single-pass collapse of every run of repeated `/` into one `/`;
this is the wording of the specification ("collapse repeated `/`"). -/
def collapseRuns : List Char → List Char
  | [] => []
  | [c] => [c]
  | c :: c' :: rest =>
    if c = '/' ∧ c' = '/' then collapseRuns (c' :: rest)
    else c :: collapseRuns (c' :: rest)

theorem collapseRuns_of_not_hasDD (cs : List Char) (h : hasDD cs = false) :
    collapseRuns cs = cs := by
  induction cs using collapseRuns.induct with
  | case1 => rfl
  | case2 c => rfl
  | case3 c c' rest hdd ih =>
    simp [hasDD, if_pos hdd] at h
  | case4 c c' rest hdd ih =>
    have h' : hasDD (c' :: rest) = false := by
      simpa [hasDD, if_neg hdd] using h
    simp only [collapseRuns, if_neg hdd]
    rw [ih h']

theorem replaceDD_head (cs : List Char) : (replaceDD cs).head? = cs.head? := by
  induction cs using replaceDD.induct with
  | case1 => rfl
  | case2 c => rfl
  | case3 c c' rest h ih =>
    obtain ⟨h1, h2⟩ := h
    subst h1; subst h2
    rw [replaceDD, if_pos ⟨rfl, rfl⟩]
    rfl
  | case4 c c' rest h ih => simp [replaceDD, if_neg h]

theorem collapseRuns_cons_slash (xs : List Char) :
    collapseRuns ('/' :: xs) =
      if xs.head? = some '/' then collapseRuns xs else '/' :: collapseRuns xs := by
  cases xs with
  | nil => simp [collapseRuns]
  | cons x xs' =>
    by_cases hx : x = '/'
    · subst hx
      simp [collapseRuns]
    · rw [collapseRuns, if_neg (by simp [hx])]
      simp [hx]

theorem collapseRuns_replaceDD (cs : List Char) :
    collapseRuns (replaceDD cs) = collapseRuns cs := by
  induction cs using replaceDD.induct with
  | case1 => rfl
  | case2 c => rfl
  | case3 c c' rest h ih =>
    obtain ⟨h1, h2⟩ := h
    subst h1; subst h2
    have e1 : replaceDD ('/' :: '/' :: rest) = '/' :: replaceDD rest := by
      rw [replaceDD, if_pos ⟨rfl, rfl⟩]
    have e2 : collapseRuns ('/' :: '/' :: rest) = collapseRuns ('/' :: rest) := by
      rw [collapseRuns, if_pos ⟨rfl, rfl⟩]
    rw [e1, e2, collapseRuns_cons_slash, collapseRuns_cons_slash, replaceDD_head, ih]
  | case4 c c' rest h ih =>
    have e1 : replaceDD (c :: c' :: rest) = c :: replaceDD (c' :: rest) := by
      rw [replaceDD, if_neg h]
    obtain ⟨tl, etl⟩ : ∃ tl, replaceDD (c' :: rest) = c' :: tl := by
      have hh := replaceDD_head (c' :: rest)
      cases hrd : replaceDD (c' :: rest) with
      | nil => rw [hrd] at hh; simp at hh
      | cons a tl =>
        rw [hrd] at hh
        simp only [List.head?_cons] at hh
        exact ⟨tl, by rw [← (Option.some_inj.mp hh)]⟩
    rw [e1, etl, collapseRuns, if_neg h, ← etl, ih, collapseRuns, if_neg h]

theorem collapseLoopF_eq_collapseRuns (fuel : Nat) (cs : List Char)
    (hf : cs.length ≤ fuel) : collapseLoopF fuel cs = collapseRuns cs := by
  induction fuel generalizing cs with
  | zero =>
    have : cs = [] := List.length_eq_zero.mp (Nat.le_zero.mp hf)
    subst this
    rfl
  | succ fuel ih =>
    rw [collapseLoopF]
    by_cases hdd : hasDD cs
    · rw [if_pos hdd]
      have hlt := replaceDD_length_lt cs hdd
      rw [ih (replaceDD cs) (by omega), collapseRuns_replaceDD]
    · rw [if_neg hdd, collapseRuns_of_not_hasDD cs (eq_false_of_ne_true hdd)]

theorem collapseLoop_eq_collapseRuns (cs : List Char) :
    collapseLoop cs = collapseRuns cs :=
  collapseLoopF_eq_collapseRuns cs.length cs le_rfl

theorem collapseRuns_head (cs : List Char) : (collapseRuns cs).head? = cs.head? := by
  induction cs using collapseRuns.induct with
  | case1 => rfl
  | case2 c => rfl
  | case3 c c' rest h ih =>
    obtain ⟨h1, h2⟩ := h
    subst h1; subst h2
    rw [collapseRuns, if_pos ⟨rfl, rfl⟩]
    simpa using ih
  | case4 c c' rest h ih =>
    rw [collapseRuns, if_neg h]
    rfl

theorem stripLead_eq_self (cs : List Char)
    (h1 : ∀ rest, cs = '/' :: rest → False)
    (h2 : ∀ rest, cs = '.' :: '/' :: rest → False) :
    stripLead cs = cs := by
  rw [stripLead.eq_def]
  split
  · rename_i rest; exact absurd rfl (h1 rest)
  · rename_i rest; exact absurd rfl (h2 rest)
  · rfl

theorem stripLead_head (cs : List Char) : (stripLead cs).head? ≠ some '/' := by
  induction cs using stripLead.induct with
  | case1 rest ih => exact ih
  | case2 rest ih => exact ih
  | case3 cs h1 h2 =>
    rw [stripLead_eq_self cs h1 h2]
    cases cs with
    | nil => simp
    | cons c rest =>
      intro hc
      simp only [List.head?_cons, Option.some_inj] at hc
      exact h1 rest (by rw [hc])

/-! ## `normalize_arcpath` (push script, lines 39-47) -/

/-- Source embedding of `normalize_arcpath`: replace backslashes, strip the
leading `/` and `./` prefixes in a loop, then run `p.replace("//", "/")` until
no `"//"` remains. -/
def normalize_arcpath (s : String) : String :=
  String.mk (collapseLoop (stripLead (replaceBS s.data)))

/-- Specification-side normal form, following the spec wording: "replace
backslashes with forward slashes; strip any number of leading `/` or `./`
segments; collapse repeated `/`" — with the collapse written as a direct
single pass over the string that keeps a single `/` per run. -/
def canonicalArcpath (s : String) : String :=
  String.mk (collapseRuns (stripLead (replaceBS s.data)))

theorem normalize_arcpath_eq_canonical (s : String) :
    normalize_arcpath s = canonicalArcpath s := by
  unfold normalize_arcpath canonicalArcpath
  rw [collapseLoop_eq_collapseRuns]

theorem normalize_arcpath_head (s : String) :
    (normalize_arcpath s).data.head? ≠ some '/' := by
  unfold normalize_arcpath
  simpa [collapseLoop_eq_collapseRuns, collapseRuns_head] using
    stripLead_head (replaceBS s.data)

theorem not_bs_mem_replaceBS (cs : List Char) : '\\' ∉ replaceBS cs := by
  unfold replaceBS
  intro hm
  rcases List.mem_map.mp hm with ⟨c, _, he⟩
  by_cases hc : c = '\\'
  · rw [if_pos hc] at he
    exact absurd he (by decide)
  · rw [if_neg hc] at he
    exact hc he

theorem replaceBS_eq_self (cs : List Char) (h : '\\' ∉ cs) :
    replaceBS cs = cs := by
  induction cs with
  | nil => rfl
  | cons c rest ih =>
    have hc : c ≠ '\\' := fun he => h (by simp [he])
    simp only [replaceBS, List.map_cons, if_neg hc]
    exact congrArg (c :: ·) (ih (fun hm => h (List.mem_cons_of_mem c hm)))

theorem mem_stripLead (c : Char) (cs : List Char) (h : c ∈ stripLead cs) :
    c ∈ cs := by
  induction cs using stripLead.induct with
  | case1 rest ih => exact List.mem_cons_of_mem _ (ih h)
  | case2 rest ih => exact List.mem_cons_of_mem _ (List.mem_cons_of_mem _ (ih h))
  | case3 cs h1 h2 =>
    rw [stripLead_eq_self cs h1 h2] at h
    exact h

theorem mem_collapseRuns (c : Char) (cs : List Char)
    (h : c ∈ collapseRuns cs) : c ∈ cs := by
  induction cs using collapseRuns.induct with
  | case1 => exact h
  | case2 d => exact h
  | case3 d d' rest hdd ih =>
    rw [collapseRuns, if_pos hdd] at h
    exact List.mem_cons_of_mem _ (ih h)
  | case4 d d' rest hdd ih =>
    rw [collapseRuns, if_neg hdd] at h
    rcases List.mem_cons.mp h with rfl | h
    · exact List.mem_cons_self _ _
    · exact List.mem_cons_of_mem _ (ih h)

theorem stripLead_not_dotslash (cs : List Char) :
    ∀ rest, stripLead cs ≠ '.' :: '/' :: rest := by
  induction cs using stripLead.induct with
  | case1 rest ih => exact ih
  | case2 rest ih => exact ih
  | case3 cs h1 h2 =>
    rw [stripLead_eq_self cs h1 h2]
    intro rest he
    exact h2 rest he

theorem collapseRuns_cons_shape (c : Char) (rest : List Char) :
    ∃ tl, collapseRuns (c :: rest) = c :: tl := by
  have hh := collapseRuns_head (c :: rest)
  cases hcc : collapseRuns (c :: rest) with
  | nil => rw [hcc] at hh; simp at hh
  | cons a tl =>
    rw [hcc] at hh
    simp only [List.head?_cons, Option.some_inj] at hh
    exact ⟨tl, by rw [hh]⟩

theorem collapseRuns_cons_ne_slash (c : Char) (rest : List Char)
    (hc : c ≠ '/') :
    ∃ tl, collapseRuns (c :: rest) = c :: tl ∧ tl.head? = rest.head? := by
  cases rest with
  | nil => exact ⟨[], rfl, rfl⟩
  | cons c' rs =>
    have hdd : ¬ (c = '/' ∧ c' = '/') := fun hh => hc hh.1
    refine ⟨collapseRuns (c' :: rs), ?_, ?_⟩
    · rw [collapseRuns, if_neg hdd]
    · rw [collapseRuns_head]

theorem stripLead_collapse_fix (x : List Char) :
    stripLead (collapseRuns (stripLead x)) = collapseRuns (stripLead x) := by
  have hds := stripLead_not_dotslash x
  cases hcy : stripLead x with
  | nil => rfl
  | cons c rest =>
    have hc : c ≠ '/' := by
      have hh := stripLead_head x
      rw [hcy] at hh
      simpa using hh
    obtain ⟨tl, htl, hhd⟩ := collapseRuns_cons_ne_slash c rest hc
    rw [htl]
    apply stripLead_eq_self
    · intro r he
      injection he with h1 _
      exact hc h1
    · intro r he
      injection he with h1 h2
      have hrh : rest.head? = some '/' := by
        rw [← hhd, h2]
        rfl
      cases hrest : rest with
      | nil => rw [hrest] at hrh; exact absurd hrh (by simp)
      | cons d rs =>
        rw [hrest] at hrh
        simp only [List.head?_cons, Option.some_inj] at hrh
        exact hds rs (by rw [hcy, hrest, h1, hrh])

theorem hasDD_collapseRuns (cs : List Char) :
    hasDD (collapseRuns cs) = false := by
  induction cs using collapseRuns.induct with
  | case1 => rfl
  | case2 c => rfl
  | case3 c c' rest hdd ih =>
    rw [collapseRuns, if_pos hdd]
    exact ih
  | case4 c c' rest hdd ih =>
    rw [collapseRuns, if_neg hdd]
    obtain ⟨tl, htl⟩ := collapseRuns_cons_shape c' rest
    rw [htl, hasDD, if_neg hdd, ← htl]
    exact ih

theorem canonicalArcpath_idem (s : String) :
    canonicalArcpath (canonicalArcpath s) = canonicalArcpath s := by
  unfold canonicalArcpath
  have hno : '\\' ∉ collapseRuns (stripLead (replaceBS s.data)) := fun hm =>
    not_bs_mem_replaceBS s.data (mem_stripLead _ _ (mem_collapseRuns _ _ hm))
  rw [show (String.mk (collapseRuns (stripLead (replaceBS s.data)))).data =
      collapseRuns (stripLead (replaceBS s.data)) from rfl,
    replaceBS_eq_self _ hno, stripLead_collapse_fix,
    collapseRuns_of_not_hasDD _ (hasDD_collapseRuns _)]

theorem normalize_arcpath_idem (s : String) :
    normalize_arcpath (normalize_arcpath s) = normalize_arcpath s := by
  simp only [normalize_arcpath_eq_canonical]
  exact canonicalArcpath_idem s

/-! ## `PurePosixPath` string semantics

`str(PurePosixPath(s))` drops empty and `"."` segments, collapses slashes,
keeps `".."` segments, keeps a single leading `/` (or a double `//`, which
POSIX treats specially and `PurePosixPath` preserves when there are exactly
two leading slashes), and renders the empty path as `"."`. -/

/-- Segments of a path string, split on `/` (Python `str.split("/")`). -/
def splitSlash : List Char → List (List Char)
  | [] => [[]]
  | c :: rest =>
    if c = '/' then [] :: splitSlash rest
    else
      match splitSlash rest with
      | s :: ss => (c :: s) :: ss
      | [] => [[c]]

/-- Non-empty, non-`"."` segments: the `parts` of a `PurePosixPath` without
its root. -/
def rawSegs (cs : List Char) : List (List Char) :=
  (splitSlash cs).filter (fun s => decide (s ≠ [] ∧ s ≠ ['.']))

/-- Root prefix of a `PurePosixPath`: `"//"` for exactly two leading slashes,
`"/"` for one or for three and more, empty for a relative path. -/
def absPrefix : List Char → List Char
  | '/' :: '/' :: '/' :: _ => ['/']
  | '/' :: '/' :: _ => ['/', '/']
  | '/' :: _ => ['/']
  | _ => []

/-- Intercalate segments with `/`. -/
def joinSegs : List (List Char) → List Char
  | [] => []
  | [s] => s
  | s :: rest => s ++ '/' :: joinSegs rest

/-- Assemble a path string from a root prefix and segments; an empty relative
path renders as `"."`. -/
def mkPathChars (ab : List Char) (segs : List (List Char)) : List Char :=
  match segs with
  | [] => if ab = [] then ['.'] else ab
  | _ => ab ++ joinSegs segs

/-- Model of `str(PurePosixPath(s))`. -/
def pppChars (cs : List Char) : List Char :=
  mkPathChars (absPrefix cs) (rawSegs cs)

/-- Model of `str(PurePosixPath(root).joinpath(rel))`: an absolute `rel`
replaces `root`, otherwise the segments are concatenated under `root`'s
root prefix. -/
def joinpathChars (root rel : List Char) : List Char :=
  if rel.head? = some '/' then pppChars rel
  else mkPathChars (absPrefix root) (rawSegs root ++ rawSegs rel)

/-- Model of `is_safe_join` (push script, lines 49-53):
`str(root.joinpath(rel)).startswith(str(root))`. -/
def is_safe_join (root rel : String) : Bool :=
  (pppChars root.data).isPrefixOf (joinpathChars root.data rel.data)

/-- Model of `str(PurePosixPath(s).parent)`. -/
def pppParent (s : String) : String :=
  String.mk (mkPathChars (absPrefix s.data) (rawSegs s.data).dropLast)

theorem joinSegs_cons_cons (s s' : List Char) (rest : List (List Char)) :
    joinSegs (s :: s' :: rest) = s ++ '/' :: joinSegs (s' :: rest) := rfl

theorem joinSegs_append (a b : List (List Char)) (ha : a ≠ []) (hb : b ≠ []) :
    joinSegs (a ++ b) = joinSegs a ++ '/' :: joinSegs b := by
  induction a with
  | nil => exact absurd rfl ha
  | cons s a' ih =>
    cases a' with
    | nil =>
      cases b with
      | nil => exact absurd rfl hb
      | cons t b' =>
        rw [List.singleton_append, joinSegs_cons_cons]
        rfl
    | cons s' a'' =>
      rw [List.cons_append, List.cons_append, joinSegs_cons_cons,
        ← List.cons_append, ih (by simp), joinSegs_cons_cons]
      simp

/-- Key fact about `is_safe_join`: for an absolute `root` and any *relative*
`rel` — even one full of `..` segments — the check succeeds, because
`PurePosixPath` does not resolve `..` and the joined string extends the root
textually. -/
theorem is_safe_join_of_relative (root rel : String)
    (hroot : root.data.head? = some '/') (hrel : rel.data.head? ≠ some '/') :
    is_safe_join root rel = true := by
  unfold is_safe_join joinpathChars
  rw [if_neg hrel]
  have hab : absPrefix root.data ≠ [] := by
    unfold absPrefix
    cases hr : root.data with
    | nil => rw [hr] at hroot; simp at hroot
    | cons c cs =>
      rw [hr] at hroot
      simp only [List.head?_cons, Option.some_inj] at hroot
      subst hroot
      split <;> simp_all
  rw [List.isPrefixOf_iff_prefix]
  unfold pppChars
  unfold mkPathChars
  cases hsr : rawSegs root.data with
  | nil =>
    simp only [List.nil_append]
    cases hst : rawSegs rel.data with
    | nil => simp [hab]
    | cons t ts =>
      rw [if_neg hab]
      exact ⟨joinSegs (t :: ts), rfl⟩
  | cons r rs =>
    cases hst : rawSegs rel.data with
    | nil => simp
    | cons t ts =>
      have : joinSegs ((r :: rs) ++ (t :: ts)) =
          joinSegs (r :: rs) ++ '/' :: joinSegs (t :: ts) :=
        joinSegs_append _ _ (by simp) (by simp)
      simp only [this, ← List.append_assoc]
      exact ⟨'/' :: joinSegs (t :: ts), rfl⟩

/-! ## Small Python `str` method models -/

/-- Python `s.startswith(pre)`. -/
def strStartsWith (s pre : String) : Bool := pre.data.isPrefixOf s.data

/-- Python `s.endswith(suf)`. -/
def strEndsWith (s suf : String) : Bool := suf.data.isSuffixOf s.data

/-- Python `s.lstrip("/")`. -/
def lstripSlash (s : String) : String :=
  String.mk (s.data.dropWhile (fun c => c = '/'))

/-- Drop characters satisfying `p` from both ends of a list. -/
def dropEnds (p : Char → Bool) (cs : List Char) : List Char :=
  ((cs.dropWhile p).reverse.dropWhile p).reverse

/-- Python `s.strip()` (whitespace at both ends). -/
def pyStrip (s : String) : String := String.mk (dropEnds Char.isWhitespace s.data)

/-- Python `s.strip("/")`. -/
def pyStripSlashes (s : String) : String :=
  String.mk (dropEnds (fun c => c = '/') s.data)

/-! ## Routing (push script, lines 97-124) -/

/-- Model of the `FileRoute` dataclass. -/
structure FileRoute where
  src_prefix : String
  dst_root : String
deriving Repr, DecidableEq

/-- Ordering key of `build_routes`: longest source prefix first
(`routes.sort(key=lambda r: len(r.src_prefix), reverse=True)`). -/
def routeLenGE (a b : FileRoute) : Prop :=
  b.src_prefix.length ≤ a.src_prefix.length

instance : DecidableRel routeLenGE := fun a b =>
  inferInstanceAs (Decidable (b.src_prefix.length ≤ a.src_prefix.length))

instance : IsTotal FileRoute routeLenGE :=
  ⟨fun a b => Nat.le_total b.src_prefix.length a.src_prefix.length⟩

instance : IsTrans FileRoute routeLenGE :=
  ⟨fun _ _ _ hab hbc => Nat.le_trans hbc hab⟩

/-- Model of `build_routes` (push script, lines 102-112).  Each config item is
the pair of its `"from"` and `"to"` values; items with an empty source or
destination are dropped; the result is sorted by source-prefix length,
longest first (Python's stable `list.sort(key=..., reverse=True)`). -/
def build_routes (map_cfg : List (String × String)) : List FileRoute :=
  let routes := map_cfg.filterMap (fun item =>
    let src := normalize_arcpath (pyStripSlashes (pyStrip item.1))
    let dst := pyStrip item.2
    if src = "" ∨ dst = "" then none
    else some { src_prefix := src, dst_root := dst })
  routes.insertionSort routeLenGE

/-- The matching condition of the loop in `resolve_destination` (line 121):
`norm == r.src_prefix or norm.startswith(r.src_prefix + "/")`. -/
def routeMatches (norm : String) (r : FileRoute) : Bool :=
  norm == r.src_prefix || strStartsWith norm (r.src_prefix ++ "/")

/-- The tail computed for a matched route (line 122):
`norm[len(r.src_prefix):].lstrip("/")`. -/
def routeTail (norm : String) (r : FileRoute) : String :=
  lstripSlash (String.mk (norm.data.drop r.src_prefix.length))

/-- The `for r in routes` loop of `resolve_destination` (lines 120-123). -/
def resolveLoop (norm : String) : List FileRoute → Option (String × String)
  | [] => none
  | r :: rs =>
    if routeMatches norm r then some (r.dst_root, routeTail norm r)
    else resolveLoop norm rs

/-- Model of `resolve_destination` (push script, lines 114-124). -/
def resolve_destination (rel_path : String) (routes : List FileRoute)
    (default_root : String) : String × String :=
  let norm := normalize_arcpath rel_path
  match resolveLoop norm routes with
  | some p => p
  | none => (default_root, norm)

/-! ## Top-level detection and entry preprocessing (push script) -/

/-- First path segment of a normalized name: `normalize_arcpath(n).split("/", 1)[0]`. -/
def topOf (n : String) : String :=
  String.mk ((normalize_arcpath n).data.takeWhile (fun c => c ≠ '/'))

/-- Accumulator loop of `first_top_level`: the set of distinct non-empty top
segments seen so far is either empty (`none`) or a singleton; a second
distinct segment returns `None` immediately. -/
def ftlAux : List String → Option String → Option String
  | [], acc => acc
  | n :: rest, acc =>
    let top := topOf n
    if top = "" then ftlAux rest acc
    else
      match acc with
      | none => ftlAux rest (some top)
      | some t => if t = top then ftlAux rest (some t) else none

/-- Model of `first_top_level` (push script, lines 85-93). -/
def first_top_level (names : List String) : Option String :=
  ftlAux names none

/-- The per-entry relative-path preprocessing of `upload_zip`
(lines 145-156): normalize the member name, skip empty names, detect the
directory marker (trailing `/`), optionally strip the shared top-level
segment, and skip entries whose remaining path is empty.  Returns the
directory flag together with the relative path used for routing. -/
def effectiveRel (strip_top_level : Bool) (top : Option String)
    (filename : String) : Option (Bool × String) :=
  let name := normalize_arcpath filename
  if name = "" then none
  else
    let is_dir : Bool := name.data.getLast? == some '/'
    let rel0 := if is_dir then String.mk name.data.dropLast else name
    let rel := match top with
      | some t =>
        if strip_top_level && strStartsWith rel0 (t ++ "/") then
          String.mk (rel0.data.drop (t.length + 1))
        else rel0
      | none => rel0
    if rel = "" then none else some (is_dir, rel)

/-! ## Remote filesystem operations -/

/-- One remote filesystem mutation performed over SFTP.  Symlink targets are
decoded code-point sequences (Python `str` may carry lone surrogates from
`surrogateescape`, which Lean's `Char` cannot, hence `List Nat`). -/
inductive ROp where
  | mkdir (path : String)
  | remove (path : String)
  | symlink (target : List Nat) (path : String)
  | writeFile (path : String) (data : List Nat)
  | chmod (path : String) (mode : Nat)
  | utime (path : String) (mtime : Nat)
deriving Repr, DecidableEq

/-- Non-empty prefixes of a list, shortest first. -/
def initsNE {α : Type} : List α → List (List α)
  | [] => []
  | x :: xs => [x] :: (initsNE xs).map (fun l => x :: l)

/-- Model of `ensure_remote_dirs` (push script, lines 55-68): walk the
`PurePosixPath.parts` of the path, issuing one `mkdir` per cumulative prefix
(the root `/` itself included for absolute paths); "already exists" errors
are swallowed, so the op list records every attempt. -/
def ensure_remote_dirs (path : String) : List ROp :=
  let ab := absPrefix path.data
  let segs := rawSegs path.data
  (if ab = [] then [] else [ROp.mkdir (String.mk ab)]) ++
    (initsNE segs).map (fun ps => ROp.mkdir (String.mk (ab ++ joinSegs ps)))

/-- Model of `set_times_and_mode` (push script, lines 70-83): `utime` when an
mtime is present, `chmod mode & 0o7777` when a mode is present; failures are
only warnings, so the op list records the attempts. -/
def set_times_and_mode (rpath : String) (mtime : Option Nat) (mode : Option Nat) :
    List ROp :=
  (match mtime with
   | some t => [ROp.utime rpath t]
   | none => []) ++
  (match mode with
   | some m => [ROp.chmod rpath (m &&& 0o7777)]
   | none => [])

/-- Model of `detect_zip_unix_mode` (push script, lines 128-132):
`ext = external_attr >> 16`; the mode is `ext & 0o7777` when `ext` is
non-zero, else `None`; the entry is a symlink when the file-type bits
`ext & 0o170000` equal `S_IFLNK = 0o120000`. -/
def detect_zip_unix_mode (external_attr : Nat) : Option Nat × Bool :=
  let ext := external_attr >>> 16
  (if ext ≠ 0 then some (ext &&& 0o7777) else none,
   (ext &&& 0o170000) == 0o120000)

/-! ## Streamed chunk copying (1 MiB chunks, used by both scripts) -/

/-- The chunk size `1024 * 1024` used by every copy loop in the repository. -/
def CHUNK : Nat := 1048576

/-- Fuelled form of the copy loop: every iteration on a non-empty stream
consumes at least one byte, so `data.length` iterations always drain it. -/
def chunkedCopyF : Nat → List Nat → List Nat
  | 0, _ => []
  | _ + 1, [] => []
  | fuel + 1, x :: xs => ((x :: xs).take CHUNK) ++ chunkedCopyF fuel ((x :: xs).drop CHUNK)

/-- Model of the `while True: chunk = src.read(1024*1024); ... dst.write(chunk)`
loops: the written stream is the concatenation of successive 1 MiB chunks. -/
def chunkedCopy (data : List Nat) : List Nat :=
  chunkedCopyF data.length data

theorem chunkedCopyF_eq (fuel : Nat) (data : List Nat)
    (hf : data.length ≤ fuel) : chunkedCopyF fuel data = data := by
  induction fuel generalizing data with
  | zero =>
    have : data = [] := List.length_eq_zero.mp (Nat.le_zero.mp hf)
    subst this
    rfl
  | succ fuel ih =>
    cases data with
    | nil => rfl
    | cons x xs =>
      rw [chunkedCopyF, ih ((x :: xs).drop CHUNK)
        (by simp only [List.length_drop, List.length_cons, CHUNK] at *; omega),
        List.take_append_drop]

theorem chunkedCopy_eq (data : List Nat) : chunkedCopy data = data :=
  chunkedCopyF_eq data.length data le_rfl

/-! ## UTF-8 decoding with the `surrogateescape` error handler

Model of Python `bytes.decode("utf-8", "surrogateescape")` (used for symlink
targets, push script line 180).  The result is the sequence of decoded code
points; an undecodable byte `b` becomes the lone surrogate `0xDC00 + b`
(which is why the result is `List Nat` and not a Lean `String`). -/

/-- Continuation byte test `0x80 ≤ b ≤ 0xBF`. -/
def contB (b : Nat) : Bool := decide (0x80 ≤ b ∧ b ≤ 0xBF)

/-- Allowed second byte of a three-byte sequence (excludes overlong forms and
surrogate code points, as CPython's strict UTF-8 decoder does). -/
def cont3ok (b b2 : Nat) : Bool :=
  if b = 0xE0 then decide (0xA0 ≤ b2 ∧ b2 ≤ 0xBF)
  else if b = 0xED then decide (0x80 ≤ b2 ∧ b2 ≤ 0x9F)
  else contB b2

/-- Allowed second byte of a four-byte sequence (excludes overlong forms and
code points above U+10FFFF). -/
def cont4ok (b b2 : Nat) : Bool :=
  if b = 0xF0 then decide (0x90 ≤ b2 ∧ b2 ≤ 0xBF)
  else if b = 0xF4 then decide (0x80 ≤ b2 ∧ b2 ≤ 0x8F)
  else contB b2

/-- Fuelled UTF-8 decoding with `surrogateescape`: valid sequences decode
normally; an invalid lead or incomplete sequence escapes the single lead
byte (code point `0xDC00 + b`) and decoding resumes at the following byte.
Every step consumes at least one byte, so `length` fuel always suffices. -/
def utf8DecodeF : Nat → List Nat → List Nat
  | 0, _ => []
  | _ + 1, [] => []
  | fuel + 1, b :: rest =>
    if b < 0x80 then b :: utf8DecodeF fuel rest
    else if 0xC2 ≤ b ∧ b ≤ 0xDF then
      match rest with
      | b2 :: rest2 =>
        if contB b2 then
          (((b - 0xC0) <<< 6) + (b2 - 0x80)) :: utf8DecodeF fuel rest2
        else (0xDC00 + b) :: utf8DecodeF fuel rest
      | [] => [0xDC00 + b]
    else if 0xE0 ≤ b ∧ b ≤ 0xEF then
      match rest with
      | b2 :: b3 :: rest3 =>
        if cont3ok b b2 && contB b3 then
          (((b - 0xE0) <<< 12) + ((b2 - 0x80) <<< 6) + (b3 - 0x80)) ::
            utf8DecodeF fuel rest3
        else (0xDC00 + b) :: utf8DecodeF fuel rest
      | _ => (0xDC00 + b) :: utf8DecodeF fuel rest
    else if 0xF0 ≤ b ∧ b ≤ 0xF4 then
      match rest with
      | b2 :: b3 :: b4 :: rest4 =>
        if cont4ok b b2 && contB b3 && contB b4 then
          (((b - 0xF0) <<< 18) + ((b2 - 0x80) <<< 12) + ((b3 - 0x80) <<< 6) +
            (b4 - 0x80)) :: utf8DecodeF fuel rest4
        else (0xDC00 + b) :: utf8DecodeF fuel rest
      | _ => (0xDC00 + b) :: utf8DecodeF fuel rest
    else (0xDC00 + b) :: utf8DecodeF fuel rest

/-- Model of Python `bytes.decode("utf-8", "surrogateescape")`, as the list
of decoded code points. -/
def utf8DecodeSE (bs : List Nat) : List Nat :=
  utf8DecodeF bs.length bs

/-- On pure ASCII byte sequences the decoder is the identity. -/
theorem utf8DecodeF_ascii (fuel : Nat) (bs : List Nat)
    (hf : bs.length ≤ fuel) (h : ∀ b ∈ bs, b < 0x80) :
    utf8DecodeF fuel bs = bs := by
  induction fuel generalizing bs with
  | zero =>
    have : bs = [] := List.length_eq_zero.mp (Nat.le_zero.mp hf)
    subst this
    rfl
  | succ fuel ih =>
    cases bs with
    | nil => rfl
    | cons b rest =>
      have hb : b < 0x80 := h b (by simp)
      have hr : utf8DecodeF fuel rest = rest :=
        ih rest (by simp only [List.length_cons] at hf; omega)
          (fun x hx => h x (by simp [hx]))
      rw [utf8DecodeF.eq_def]
      simp only [if_pos hb, hr]

theorem utf8DecodeSE_ascii (bs : List Nat) (h : ∀ b ∈ bs, b < 0x80) :
    utf8DecodeSE bs = bs :=
  utf8DecodeF_ascii bs.length bs le_rfl h

/-- Code points of a Lean string, for comparing decoded targets with string
literals. -/
def strCodes (s : String) : List Nat := s.data.map Char.toNat

/-! ## The push extractor (`upload_zip`, push script lines 134-208) -/

/-- One zip member, as far as the extractor observes it: its stored name, its
external attributes, its payload bytes, and the mtime that
`mktime(datetime(*zi.date_time).timetuple())` produces for it (`none` when
that conversion raises; the numeric value is environment-dependent, so the
model carries it as data). -/
structure ZipEntry where
  filename : String
  external_attr : Nat
  payload : List Nat
  mtimeOpt : Option Nat
deriving Repr, DecidableEq

/-- Remote operations performed by the body of the `for zi in zf.infolist()`
loop of `upload_zip` for one member (push script, lines 144-208), on the
successful-I/O path: unsafe or empty entries are skipped with no operation;
directory entries are created and get their mode applied; symlink entries
have any pre-existing node removed and the link created from the decoded
payload; regular files are streamed in 1 MiB chunks and then receive
utime/chmod. -/
def processZipEntry (routes : List FileRoute) (base_remote_root : String)
    (strip_top_level : Bool) (top : Option String) (e : ZipEntry) : List ROp :=
  match effectiveRel strip_top_level top e.filename with
  | none => []
  | some (is_dir, rel) =>
    let rt := resolve_destination rel routes base_remote_root
    let remote_root := rt.1
    let tail := rt.2
    let rpath := String.mk (joinpathChars remote_root.data tail.data)
    if ¬ is_safe_join remote_root tail then []
    else if is_dir then
      ensure_remote_dirs rpath ++
        set_times_and_mode rpath none (detect_zip_unix_mode e.external_attr).1
    else
      ensure_remote_dirs (pppParent rpath) ++
        (let md := detect_zip_unix_mode e.external_attr
         if md.2 then
           [ROp.remove rpath, ROp.symlink (utf8DecodeSE e.payload) rpath]
         else
           ROp.writeFile rpath (chunkedCopy e.payload) ::
             set_times_and_mode rpath e.mtimeOpt md.1)

/-- Model of `upload_zip` (push script, lines 134-208): compute the shared
top-level segment over all member names once, then process every member in
order. -/
def upload_zip (entries : List ZipEntry) (base_remote_root : String)
    (routes : List FileRoute) (strip_top_level : Bool) : List ROp :=
  let top := first_top_level (entries.map (fun e => e.filename))
  (entries.map (processZipEntry routes base_remote_root strip_top_level top)).flatten

/-! ## The pull-side remote tree walker (`sftp_walk`, pull script lines 37-68) -/

/-- One entry of a remote directory listing, as `sftp_walk` classifies it from
`listdir_attr` and, for symlinks, one follow-up `stat`:
`dir` and `linkDir` carry the listed children of the (target) directory,
`file` and `linkFile` are regular files (possibly through a link),
`linkBroken` is a symlink whose `stat` fails, `other` is any remaining node
kind (fifo, socket, ...). -/
inductive RNode where
  | file
  | dir (children : List (String × RNode))
  | linkFile
  | linkDir (children : List (String × RNode))
  | linkBroken
  | other

/-- Directory names collected by the listing loop, in listing order: plain
directories (except the special names `.` and `..`) and symlinks that stat to
a directory (the code applies no special-name filter on that branch). -/
def dirNamesOf (es : List (String × RNode)) : List String :=
  es.filterMap (fun p =>
    match p.2 with
    | RNode.dir _ => if p.1 = "." ∨ p.1 = ".." then none else some p.1
    | RNode.linkDir _ => some p.1
    | _ => none)

/-- File names collected by the listing loop, in listing order: regular files
and symlinks that stat to a regular file. -/
def fileNamesOf (es : List (String × RNode)) : List String :=
  es.filterMap (fun p =>
    match p.2 with
    | RNode.file => some p.1
    | RNode.linkFile => some p.1
    | _ => none)

/-- Lexicographic code-point comparison of character lists: the order Python
uses when comparing `str` values. -/
def charListLe : List Char → List Char → Bool
  | [], _ => true
  | _ :: _, [] => false
  | a :: as, b :: bs =>
    if a.toNat < b.toNat then true
    else if b.toNat < a.toNat then false
    else charListLe as bs

theorem charListLe_total (a b : List Char) :
    charListLe a b = true ∨ charListLe b a = true := by
  induction a generalizing b with
  | nil => left; rfl
  | cons x xs ih =>
    cases b with
    | nil => right; rfl
    | cons y ys =>
      rcases Nat.lt_trichotomy x.toNat y.toNat with h | h | h
      · left; simp [charListLe, h]
      · rcases ih ys with hy | hy
        · left; simp [charListLe, h, hy]
        · right; simp [charListLe, h.symm, hy]
      · right; simp [charListLe, h]

theorem charListLe_trans (a b c : List Char) (hab : charListLe a b = true)
    (hbc : charListLe b c = true) : charListLe a c = true := by
  induction a generalizing b c with
  | nil => rfl
  | cons x xs ih =>
    cases b with
    | nil => simp [charListLe] at hab
    | cons y ys =>
      cases c with
      | nil => simp [charListLe] at hbc
      | cons z zs =>
        simp only [charListLe] at hab hbc ⊢
        split_ifs at hab hbc ⊢ <;> try omega
        all_goals try rfl
        exact ih ys zs hab hbc

/-- The string order used to model Python `sorted()` on path names. -/
def strLe (a b : String) : Prop := charListLe a.data b.data = true

instance : DecidableRel strLe := fun a b =>
  inferInstanceAs (Decidable (charListLe a.data b.data = true))

instance : IsTotal String strLe := ⟨fun a b => charListLe_total a.data b.data⟩

instance : IsTrans String strLe :=
  ⟨fun a b c => charListLe_trans a.data b.data c.data⟩

/-- Python `sorted()` over strings (code-point lexicographic, stable). -/
def sortStrings (l : List String) : List String :=
  l.insertionSort strLe

/-- A walk triple `(dirpath, dirnames, filenames)`. -/
abbrev WalkTriple := String × List String × List String

mutual
/-- Walk of one directory whose listing is `es`: yield the triple for `top`
with both name lists sorted, then recurse into the collected directories in
listing order (the code iterates the *unsorted* `dirs` list). -/
def walkEntries (top : String) (es : List (String × RNode)) : List WalkTriple :=
  (top, sortStrings (dirNamesOf es), sortStrings (fileNamesOf es)) ::
    walkSubdirs top es

/-- Recursion over the listing in order, expanding exactly the entries that
the listing loop appended to `dirs`. -/
def walkSubdirs (top : String) : List (String × RNode) → List WalkTriple
  | [] => []
  | (name, n) :: rest =>
    (match n with
     | RNode.dir cs =>
       if name = "." ∨ name = ".." then []
       else walkEntries (String.mk (joinpathChars top.data name.data)) cs
     | RNode.linkDir cs =>
       walkEntries (String.mk (joinpathChars top.data name.data)) cs
     | _ => []) ++ walkSubdirs top rest
end

/-- Model of `sftp_walk` at the root: `none` stands for a root path whose
`listdir_attr` raises `FileNotFoundError` (the generator then yields
nothing); `some es` is the listing of an existing root. -/
def sftp_walk (root : Option (List (String × RNode))) (top : String) :
    List WalkTriple :=
  match root with
  | none => []
  | some es => walkEntries top es

/-! ## The pull-side archive writer (pull script lines 79-96 and 370-386) -/

/-- Model of `add_file_to_zip_from_sftp` (pull script, lines 79-96): the
member name is the arcname, the external attributes pack the remote unix mode
as `(st_mode & 0xFFFF) << 16`, and the payload is the remote content copied
in 1 MiB chunks.  The zip date-time is the clamped local time of the remote
mtime; the push side later converts it back with `mktime`, and the model
carries that round-tripped value as `mtimeOpt`. -/
def add_file_to_zip_from_sftp (st_mode : Nat) (mtimeOpt : Option Nat)
    (arcname : String) (content : List Nat) : ZipEntry :=
  { filename := arcname
    external_attr := (st_mode &&& 0xFFFF) <<< 16
    payload := chunkedCopy content
    mtimeOpt := mtimeOpt }

/-- The exclusion test of the pull main loop (pull script, line 376):
`args.exclude and any(remote_file.endswith(suf) for suf in args.exclude)`. -/
def excludedBySuffix (excludes : List String) (remote_file : String) : Bool :=
  (!excludes.isEmpty) && excludes.any (fun suf => strEndsWith remote_file suf)

/-- One file of the pull main loop (pull script, lines 374-386): excluded
files are skipped before any read; otherwise the file is stored via
`add_file_to_zip_from_sftp`. -/
def pullFileStep (excludes : List String) (remote_file : String)
    (st_mode : Nat) (mtimeOpt : Option Nat) (arcname : String)
    (content : List Nat) : Option ZipEntry :=
  if excludedBySuffix excludes remote_file then none
  else some (add_file_to_zip_from_sftp st_mode mtimeOpt arcname content)

/-! ## Remote commands (DB dump and restore) -/

/-- Observable outcome of one remote command: its exit status and the decoded
text of its standard-error stream. -/
structure CmdResult where
  exit_status : Nat
  stderr : String
deriving Repr, DecidableEq

/-- Model of `run_pg_dump_into_zip` (pull script, lines 117-204): when
enabled and configured, the remote stdout is streamed into the new zip member
in 1 MiB chunks (the member is written before the status check), then a
non-zero exit status raises an error carrying the stderr text.  The result
pairs the bytes written into the archive with the success/error status. -/
def run_pg_dump_into_zip (enabled : Bool) (db_name db_user : String)
    (dump : CmdResult) (stdoutData : List Nat) :
    List Nat × Except String Unit :=
  if ¬ enabled then ([], Except.ok ())
  else if db_name = "" ∨ db_user = "" then
    ([], Except.error "pg_dump.enabled=true, но не указаны db_name или db_user")
  else
    (chunkedCopy stdoutData,
     if dump.exit_status ≠ 0 then
       Except.error ("pg_dump завершился с кодом " ++ toString dump.exit_status ++
         ". stderr:\n" ++ dump.stderr)
     else Except.ok ())

/-- Model of `run_sql_via_psql` (push script, lines 287-349): validate the
configuration, then run `dropdb`, `createdb` and the `psql` import in
sequence, checking each exit status and raising an error that carries the
captured stderr of the failing command. -/
def run_sql_via_psql (db_name db_user : String)
    (drop_res create_res import_res : CmdResult) : Except String Unit :=
  if db_name = "" ∨ db_user = "" then
    Except.error "Для восстановления БД нужны db_name и db_user"
  else if drop_res.exit_status ≠ 0 then
    Except.error ("Удаление БД завершилось с кодом " ++
      toString drop_res.exit_status ++ ":\n" ++ drop_res.stderr)
  else if create_res.exit_status ≠ 0 then
    Except.error ("создание БД завершилось с кодом " ++
      toString create_res.exit_status ++ ":\n" ++ create_res.stderr)
  else if import_res.exit_status ≠ 0 then
    Except.error ("psql вернул код " ++
      toString import_res.exit_status ++ ":\n" ++ import_res.stderr)
  else Except.ok ()

/-! ## Shared helper lemmas for the claim theorems -/

theorem strStartsWith_append (a b : String) : strStartsWith (a ++ b) a = true := by
  unfold strStartsWith
  rw [List.isPrefixOf_iff_prefix, String.data_append]
  exact List.prefix_append _ _

theorem data_drop_append (a b : String) : (a ++ b).data.drop a.length = b.data := by
  rw [String.data_append]
  exact List.drop_left a.data b.data

theorem resolveLoop_first_match (norm : String) (pre post : List FileRoute)
    (r : FileRoute) (hpre : ∀ r' ∈ pre, routeMatches norm r' = false)
    (hr : routeMatches norm r = true) :
    resolveLoop norm (pre ++ r :: post) = some (r.dst_root, routeTail norm r) := by
  induction pre with
  | nil => rw [List.nil_append, resolveLoop, if_pos hr]
  | cons q qs ih =>
    rw [List.cons_append, resolveLoop,
      if_neg (by rw [hpre q (by simp)]; exact Bool.false_ne_true)]
    exact ih (fun r' h' => hpre r' (by simp [h']))

theorem resolveLoop_no_match (norm : String) (routes : List FileRoute)
    (hall : ∀ r ∈ routes, routeMatches norm r = false) :
    resolveLoop norm routes = none := by
  induction routes with
  | nil => rfl
  | cons q qs ih =>
    rw [resolveLoop, if_neg (by rw [hall q (by simp)]; exact Bool.false_ne_true)]
    exact ih (fun r h => hall r (by simp [h]))

theorem ftlAux_some (names : List String) : ∀ (acc : Option String) (t : String),
    ftlAux names acc = some t →
    (∀ n ∈ names, topOf n = "" ∨ topOf n = t) ∧ (acc = none ∨ acc = some t) := by
  induction names with
  | nil =>
    intro acc t h
    simp only [ftlAux] at h
    exact ⟨by simp, Or.inr h⟩
  | cons n rest ih =>
    intro acc t h
    cases acc with
    | none =>
      simp only [ftlAux] at h
      by_cases htop : topOf n = ""
      · rw [if_pos htop] at h
        obtain ⟨h1, _⟩ := ih none t h
        refine ⟨?_, Or.inl rfl⟩
        intro m hm
        rcases List.mem_cons.mp hm with hm | hm
        · subst hm; exact Or.inl htop
        · exact h1 m hm
      · rw [if_neg htop] at h
        obtain ⟨h1, h2⟩ := ih (some (topOf n)) t h
        have ht : topOf n = t := by
          rcases h2 with h2 | h2
          · exact absurd h2 (by simp)
          · exact Option.some_inj.mp h2
        refine ⟨?_, Or.inl rfl⟩
        intro m hm
        rcases List.mem_cons.mp hm with hm | hm
        · subst hm; exact Or.inr ht
        · exact h1 m hm
    | some t' =>
      simp only [ftlAux] at h
      by_cases htop : topOf n = ""
      · rw [if_pos htop] at h
        obtain ⟨h1, h2⟩ := ih (some t') t h
        refine ⟨?_, h2⟩
        intro m hm
        rcases List.mem_cons.mp hm with hm | hm
        · subst hm; exact Or.inl htop
        · exact h1 m hm
      · rw [if_neg htop] at h
        by_cases hEq : t' = topOf n
        · rw [if_pos hEq] at h
          obtain ⟨h1, h2⟩ := ih (some t') t h
          have ht' : t' = t := by
            rcases h2 with h2 | h2
            · exact absurd h2 (by simp)
            · exact Option.some_inj.mp h2
          refine ⟨?_, Or.inr (by rw [ht'])⟩
          intro m hm
          rcases List.mem_cons.mp hm with hm | hm
          · subst hm; exact Or.inr (by rw [← hEq, ht'])
          · exact h1 m hm
        · rw [if_neg hEq] at h
          exact absurd h (by simp)


/-! ## Claim C9 -/

/-- C9: for every input string, `normalize_arcpath` produces the canonical
form obtained by replacing every backslash with a forward slash, stripping
any number of leading `/` or `./` segments, and collapsing every run of
repeated `/` into a single `/` (the right-hand side, `canonicalArcpath`, is
the direct single-pass formalisation of that wording; the left-hand side is
the source's fixpoint loop). -/
theorem claim_C9_normalize_canonical (s : String) :
    normalize_arcpath s = canonicalArcpath s :=
  normalize_arcpath_eq_canonical s

/-! ## Claim C1 -/

/-- C1: the claim states that an arc-path with a `..` traversal segment (or
an absolute one) fails `is_safe_join` and is skipped with no remote
filesystem mutation.  The code refutes this: `PurePosixPath` does not
resolve `..`, so the joined string `/srv/app/../../etc/passwd` textually
starts with `/srv/app` and the check *passes*; the entry is then fully
extracted, writing outside the destination root.  An absolute arc-path
`/etc/passwd` is not rejected either: `normalize_arcpath` silently makes it
relative and the entry is written under the root.  This theorem evaluates
the code on both failing inputs. -/
theorem claim_C1_traversal_not_rejected :
    is_safe_join "/srv/app" "../../etc/passwd" = true ∧
    processZipEntry [] "/srv/app" false none
      { filename := "../../etc/passwd", external_attr := 0o100644 <<< 16,
        payload := [1, 2, 3], mtimeOpt := some 1700000000 } =
      [ROp.mkdir "/", ROp.mkdir "/srv", ROp.mkdir "/srv/app",
       ROp.mkdir "/srv/app/..", ROp.mkdir "/srv/app/../..",
       ROp.mkdir "/srv/app/../../etc",
       ROp.writeFile "/srv/app/../../etc/passwd" [1, 2, 3],
       ROp.utime "/srv/app/../../etc/passwd" 1700000000,
       ROp.chmod "/srv/app/../../etc/passwd" 0o644] ∧
    processZipEntry [] "/srv/app" false none
      { filename := "/etc/passwd", external_attr := 0o100644 <<< 16,
        payload := [9], mtimeOpt := none } =
      [ROp.mkdir "/", ROp.mkdir "/srv", ROp.mkdir "/srv/app",
       ROp.mkdir "/srv/app/etc",
       ROp.writeFile "/srv/app/etc/passwd" [9],
       ROp.chmod "/srv/app/etc/passwd" 0o644] := by
  decide

/-! ## Claim C2 -/

/-- C2, counterexample to the "tail unchanged" part: for a path that matches
no route but is not already normalized, `resolve_destination` returns the
*normalized* path as the tail, not the relative path unchanged. -/
theorem claim_C2_counterexample :
    resolve_destination "a//b" [] "d" = ("d", "a/b") ∧
    resolve_destination "a//b" [] "d" ≠ ("d", "a//b") := by
  decide

/-- C2 (amended): `build_routes` sorts routes by descending source-prefix
length; `resolve_destination` selects the first route of its list whose
source-prefix equals the normalized path or is a prefix of it followed by
`/` (`routeMatches`), returning the route's destination root and the
remainder after stripping the prefix (`routeTail`); the two routing examples
hold; and for a path matching no route it returns the caller-supplied
default root with the *normalized* relative path as tail (equal to the
input whenever the input is already normalized). -/
theorem claim_C2_resolve_destination :
    (∀ cfg : List (String × String), List.Sorted routeLenGE (build_routes cfg)) ∧
    (∀ (p d : String) (pre post : List FileRoute) (r : FileRoute),
      (∀ r' ∈ pre, routeMatches (normalize_arcpath p) r' = false) →
      routeMatches (normalize_arcpath p) r = true →
      resolve_destination p (pre ++ r :: post) d =
        (r.dst_root, routeTail (normalize_arcpath p) r)) ∧
    (∀ (p d : String) (routes : List FileRoute),
      (∀ r ∈ routes, routeMatches (normalize_arcpath p) r = false) →
      resolve_destination p routes d = (d, normalize_arcpath p)) ∧
    resolve_destination "app/static/logo.png"
      (build_routes [("app/static", "/srv/static"), ("app", "/srv/app")])
      "/dflt" = ("/srv/static", "logo.png") ∧
    resolve_destination "app/server.py"
      (build_routes [("app/static", "/srv/static"), ("app", "/srv/app")])
      "/dflt" = ("/srv/app", "server.py") := by
  refine ⟨?_, ?_, ?_, by decide, by decide⟩
  · intro cfg
    exact List.sorted_insertionSort routeLenGE _
  · intro p d pre post r hpre hr
    simp only [resolve_destination]
    rw [resolveLoop_first_match (normalize_arcpath p) pre post r hpre hr]
  · intro p d routes hall
    simp only [resolve_destination]
    rw [resolveLoop_no_match (normalize_arcpath p) routes hall]

/-- C2, witness: the amended theorem applied at concrete inputs. -/
theorem claim_C2_witness :
    resolve_destination "app/static/logo.png"
      [{ src_prefix := "app/static", dst_root := "/srv/static" },
       { src_prefix := "app", dst_root := "/srv/app" }] "/dflt" =
      ("/srv/static", "logo.png") ∧
    resolve_destination "zzz"
      [{ src_prefix := "app", dst_root := "/srv/app" }] "/dflt" =
      ("/dflt", "zzz") := by
  constructor
  · have h := claim_C2_resolve_destination.2.1 "app/static/logo.png" "/dflt"
      [] [{ src_prefix := "app", dst_root := "/srv/app" }]
      { src_prefix := "app/static", dst_root := "/srv/static" }
      (by intro r' h'; simp at h') (by decide)
    exact (h.symm.trans (by decide)).symm.trans (by decide)
  · have h := claim_C2_resolve_destination.2.2.1 "zzz" "/dflt"
      [{ src_prefix := "app", dst_root := "/srv/app" }] (by decide)
    exact h.trans (by decide)

/-! ## Claim C4 -/

/-- C4, counterexample to "every extracted destination path has the shared
top segment removed": the wrapper directory entry `release-42/` itself does
not start with `release-42/` after its trailing slash is removed, so it is
*not* stripped and the wrapper directory is still created at the destination
(`mkdir /dst/release-42`), even though every entry of the archive begins
with `release-42/`. -/
theorem claim_C4_counterexample :
    first_top_level ["release-42/", "release-42/a.txt"] = some "release-42" ∧
    upload_zip
      [{ filename := "release-42/", external_attr := 0, payload := [],
         mtimeOpt := none },
       { filename := "release-42/a.txt", external_attr := 0, payload := [7],
         mtimeOpt := none }]
      "/dst" [] true =
      [ROp.mkdir "/", ROp.mkdir "/dst", ROp.mkdir "/dst/release-42",
       ROp.mkdir "/", ROp.mkdir "/dst", ROp.writeFile "/dst/a.txt" [7]] ∧
    ROp.mkdir "/dst/release-42" ∈ upload_zip
      [{ filename := "release-42/", external_attr := 0, payload := [],
         mtimeOpt := none },
       { filename := "release-42/a.txt", external_attr := 0, payload := [7],
         mtimeOpt := none }]
      "/dst" [] true := by
  decide

theorem ftlAux_const (t : String) (ht : t ≠ "") :
    ∀ names : List String, (∀ n ∈ names, topOf n = t) →
      ftlAux names (some t) = some t := by
  intro names
  induction names with
  | nil => intro _; rfl
  | cons n rest ih =>
    intro hall
    simp only [ftlAux, hall n (by simp)]
    rw [if_neg ht]
    simp only [if_true]
    exact ih (fun m hm => hall m (by simp [hm]))

theorem first_top_level_of_uniform (names : List String) (t : String)
    (ht : t ≠ "") (hne : names ≠ []) (hall : ∀ n ∈ names, topOf n = t) :
    first_top_level names = some t := by
  cases names with
  | nil => exact absurd rfl hne
  | cons n rest =>
    unfold first_top_level
    simp only [ftlAux, hall n (by simp)]
    rw [if_neg ht]
    exact ftlAux_const t ht rest (fun m hm => hall m (by simp [hm]))

/-- C4 (amended): when the entries share exactly one non-empty top segment,
`first_top_level` returns it (both directions: uniform non-empty top
segments give `some`, and conversely a `some t` result means every entry's
top segment is `t` or empty, while two distinct non-empty top segments give
`none`); with strip-top-level enabled the segment is stripped from the
relative path of every entry lying strictly below it — regular files
(`top ++ "/" ++ rest`) and directory members (`top ++ "/" ++ rest ++ "/"`)
alike; an entry whose path is exactly the top segment (such as the
wrapper-directory entry) is left unchanged, so its directory is still
created at the destination; and when the archive has more than one distinct
top segment (`first_top_level` returns `none`) stripping is a no-op for
every entry. -/
theorem claim_C4_strip_top_level :
    (∀ (names : List String) (t : String), first_top_level names = some t →
      ∀ n ∈ names, topOf n = "" ∨ topOf n = t) ∧
    (∀ (names : List String) (t : String), t ≠ "" → names ≠ [] →
      (∀ n ∈ names, topOf n = t) → first_top_level names = some t) ∧
    (∀ (names : List String) (n1 n2 : String), n1 ∈ names → n2 ∈ names →
      topOf n1 ≠ "" → topOf n2 ≠ "" → topOf n1 ≠ topOf n2 →
      first_top_level names = none) ∧
    (∀ (t r name : String), normalize_arcpath name = name →
      name.data.getLast? ≠ some '/' → name = t ++ "/" ++ r → r ≠ "" →
      effectiveRel true (some t) name = some (false, r)) ∧
    (∀ (t r name : String), normalize_arcpath name = name →
      name = t ++ "/" ++ r ++ "/" → r ≠ "" →
      effectiveRel true (some t) name = some (true, r)) ∧
    (∀ (strip : Bool) (name : String),
      effectiveRel strip none name = effectiveRel false none name) ∧
    effectiveRel true (some "release-42") "release-42/a.txt" =
      some (false, "a.txt") ∧
    effectiveRel true (some "release-42") "release-42/sub/" =
      some (true, "sub") ∧
    effectiveRel true (some "release-42") "release-42/" =
      some (true, "release-42") := by
  refine ⟨?_, ?_, ?_, ?_, ?_, ?_, by decide, by decide, by decide⟩
  · intro names t h n hn
    exact (ftlAux_some names none t h).1 n hn
  · intro names t ht hne hall
    exact first_top_level_of_uniform names t ht hne hall
  · intro names n1 n2 h1 h2 ht1 ht2 hne12
    cases hftl : first_top_level names with
    | none => rfl
    | some t =>
      have e1 := (ftlAux_some names none t hftl).1 n1 h1
      have e2 := (ftlAux_some names none t hftl).1 n2 h2
      rcases e1 with e1 | e1
      · exact absurd e1 ht1
      · rcases e2 with e2 | e2
        · exact absurd e2 ht2
        · exact absurd (e1.trans e2.symm) hne12
  · intro t r name hnorm hlast hshape hr
    have hdata : name.data = (t.data ++ ['/']) ++ r.data := by
      rw [hshape]
      simp [String.data_append]
    have hne : name ≠ "" := by
      intro he
      rw [he] at hdata
      simp at hdata
    have hdirb : (name.data.getLast? == some '/') = false :=
      beq_eq_false_iff_ne.mpr hlast
    have hsw : strStartsWith name (t ++ "/") = true := by
      unfold strStartsWith
      rw [List.isPrefixOf_iff_prefix, hdata, String.data_append]
      exact List.prefix_append _ _
    have hdrop : name.data.drop (t.length + 1) = r.data := by
      rw [hdata]
      have hl : t.length + 1 = (t.data ++ ['/']).length := by
        rw [List.length_append]
        rfl
      rw [hl, List.drop_left]
    have hmk : String.mk r.data = r := rfl
    simp only [effectiveRel, hnorm]
    rw [if_neg hne]
    simp only [hdirb, Bool.false_eq_true, if_false, Bool.true_and, hsw,
      if_true, hdrop, hmk]
    rw [if_neg hr]
  · intro t r name hnorm hshape hr
    have hdata : name.data = (t.data ++ '/' :: r.data) ++ ['/'] := by
      rw [hshape]
      simp [String.data_append]
    have hne : name ≠ "" := by
      intro he
      rw [he] at hdata
      simp at hdata
    have hlastc : name.data.getLast? = some '/' := by
      rw [hdata]
      exact List.getLast?_concat _
    have hdirb : (name.data.getLast? == some '/') = true := by
      rw [hlastc]
      rfl
    have hdrop0 : name.data.dropLast = (t.data ++ ['/']) ++ r.data := by
      rw [hdata, List.dropLast_concat]
      simp
    have hsw : strStartsWith (String.mk name.data.dropLast) (t ++ "/") =
        true := by
      unfold strStartsWith
      rw [List.isPrefixOf_iff_prefix, String.data_append]
      rw [show (String.mk name.data.dropLast).data = name.data.dropLast
        from rfl, hdrop0]
      exact List.prefix_append _ _
    have hdropr : (name.data.dropLast).drop (t.length + 1) = r.data := by
      rw [hdrop0]
      have hl : t.length + 1 = (t.data ++ ['/']).length := by
        rw [List.length_append]
        rfl
      rw [hl, List.drop_left]
    have hmk : String.mk r.data = r := rfl
    simp only [effectiveRel, hnorm]
    rw [if_neg hne]
    simp only [hdirb, if_true, Bool.true_and, hsw, hdropr, hmk]
    rw [if_neg hr]
  · intro strip name
    rfl

/-- C4, witness: the amended theorem applied at concrete inputs — the
`first_top_level` characterisations in both directions, a stripped file, and
a stripped directory member. -/
theorem claim_C4_witness :
    (topOf "release-42/a.txt" = "" ∨ topOf "release-42/a.txt" = "release-42") ∧
    first_top_level ["release-42/", "release-42/a.txt"] = some "release-42" ∧
    first_top_level ["a/x", "b/y"] = none ∧
    effectiveRel true (some "release-42") "release-42/b/c.txt" =
      some (false, "b/c.txt") ∧
    effectiveRel true (some "release-42") "release-42/b/sub/" =
      some (true, "b/sub") := by
  refine ⟨?_, ?_, ?_, ?_, ?_⟩
  · exact claim_C4_strip_top_level.1 ["release-42/", "release-42/a.txt"]
      "release-42" (by decide) "release-42/a.txt" (by decide)
  · exact claim_C4_strip_top_level.2.1 ["release-42/", "release-42/a.txt"]
      "release-42" (by decide) (by decide) (by decide)
  · exact claim_C4_strip_top_level.2.2.1 ["a/x", "b/y"] "a/x" "b/y"
      (by decide) (by decide) (by decide) (by decide) (by decide)
  · exact claim_C4_strip_top_level.2.2.2.1 "release-42" "b/c.txt"
      "release-42/b/c.txt" (by decide) (by decide) (by decide) (by decide)
  · exact claim_C4_strip_top_level.2.2.2.2.1 "release-42" "b/sub"
      "release-42/b/sub/" (by decide) (by decide) (by decide)

/-! ## Claim C7 -/

theorem excludedBySuffix_iff (l : List String) (f : String) :
    excludedBySuffix l f = true ↔ ∃ suf ∈ l, suf.data <:+ f.data := by
  unfold excludedBySuffix strEndsWith
  rw [Bool.and_eq_true, List.any_eq_true]
  constructor
  · rintro ⟨-, suf, hm, hsuf⟩
    exact ⟨suf, hm, List.isSuffixOf_iff_suffix.mp hsuf⟩
  · rintro ⟨suf, hm, hsuf⟩
    refine ⟨?_, suf, hm, List.isSuffixOf_iff_suffix.mpr hsuf⟩
    cases l with
    | nil => simp at hm
    | cons x xs => rfl

/-- C7: during pull a file is skipped, before any read of its content,
exactly when its full remote path string ends with at least one
operator-supplied exclusion suffix (an exact-tail suffix of the whole path,
not of the basename and not a substring match); with exclude-suffix `.log`,
`/var/log/app.log` is omitted while `/var/log/app.logx` is stored. -/
theorem claim_C7_exclusion :
    (∀ (excludes : List String) (remote_file : String) (st_mode : Nat)
       (mt : Option Nat) (arcname : String) (content : List Nat),
      pullFileStep excludes remote_file st_mode mt arcname content = none ↔
        ∃ suf ∈ excludes, suf.data <:+ remote_file.data) ∧
    excludedBySuffix [".log"] "/var/log/app.log" = true ∧
    excludedBySuffix [".log"] "/var/log/app.logx" = false ∧
    pullFileStep [".log"] "/var/log/app.log" 0o100644 none "app.log" [1] =
      none ∧
    pullFileStep [".log"] "/var/log/app.logx" 0o100644 none "app.logx" [1] =
      some (add_file_to_zip_from_sftp 0o100644 none "app.logx" [1]) := by
  refine ⟨?_, by decide, by decide, by decide, by decide⟩
  intro excludes f st mt arc content
  constructor
  · intro h
    by_cases hex : excludedBySuffix excludes f = true
    · exact (excludedBySuffix_iff _ _).mp hex
    · rw [pullFileStep, if_neg hex] at h
      exact absurd h (by simp)
  · intro hex
    rw [pullFileStep, if_pos ((excludedBySuffix_iff _ _).mpr hex)]

/-- C7, witness: the equivalence applied at a concrete excluded path. -/
theorem claim_C7_witness :
    pullFileStep [".log"] "/data/x.log" 0o100644 none "x.log" [5] = none := by
  exact (claim_C7_exclusion.1 [".log"] "/data/x.log" 0o100644 none "x.log"
    [5]).mpr ⟨".log", by decide, by decide⟩

/-! ## Claim C8 -/

/-- C8: every remote command on the database dump/restore path (pg_dump
during pull; dropdb, createdb and the psql import during restore) that exits
with a non-zero status makes the operation fail with an error whose message
includes that command's captured stderr text, and the operation reports
success exactly when every involved command exits with zero. -/
theorem claim_C8_db_exit_status :
    (∀ (n u : String) (dump : CmdResult) (data : List Nat),
      n ≠ "" → u ≠ "" →
      (dump.exit_status ≠ 0 →
        ∃ pre, (run_pg_dump_into_zip true n u dump data).2 =
          Except.error (pre ++ dump.stderr)) ∧
      ((run_pg_dump_into_zip true n u dump data).2 = Except.ok () ↔
        dump.exit_status = 0)) ∧
    (∀ (n u : String) (d c i : CmdResult),
      n ≠ "" → u ≠ "" →
      (d.exit_status ≠ 0 →
        ∃ pre, run_sql_via_psql n u d c i = Except.error (pre ++ d.stderr)) ∧
      (d.exit_status = 0 → c.exit_status ≠ 0 →
        ∃ pre, run_sql_via_psql n u d c i = Except.error (pre ++ c.stderr)) ∧
      (d.exit_status = 0 → c.exit_status = 0 → i.exit_status ≠ 0 →
        ∃ pre, run_sql_via_psql n u d c i = Except.error (pre ++ i.stderr)) ∧
      (run_sql_via_psql n u d c i = Except.ok () ↔
        d.exit_status = 0 ∧ c.exit_status = 0 ∧ i.exit_status = 0)) := by
  constructor
  · intro n u dump data hn hu
    have hval : ¬ (n = "" ∨ u = "") := by simp [hn, hu]
    constructor
    · intro hst
      refine ⟨"pg_dump завершился с кодом " ++ toString dump.exit_status ++
        ". stderr:\n", ?_⟩
      rw [run_pg_dump_into_zip, if_neg (by simp), if_neg hval]
      simp only [if_pos hst]
    · constructor
      · intro hok
        by_contra hst
        rw [run_pg_dump_into_zip, if_neg (by simp), if_neg hval] at hok
        simp only [if_pos hst] at hok
        exact absurd hok (by simp)
      · intro hst
        rw [run_pg_dump_into_zip, if_neg (by simp), if_neg hval]
        simp [hst]
  · intro n u d c i hn hu
    have hval : ¬ (n = "" ∨ u = "") := by simp [hn, hu]
    refine ⟨?_, ?_, ?_, ?_⟩
    · intro hd
      refine ⟨"Удаление БД завершилось с кодом " ++ toString d.exit_status ++
        ":\n", ?_⟩
      rw [run_sql_via_psql, if_neg hval, if_pos hd]
    · intro hd hc
      refine ⟨"создание БД завершилось с кодом " ++ toString c.exit_status ++
        ":\n", ?_⟩
      rw [run_sql_via_psql, if_neg hval, if_neg (by simp [hd]), if_pos hc]
    · intro hd hc hi
      refine ⟨"psql вернул код " ++ toString i.exit_status ++ ":\n", ?_⟩
      rw [run_sql_via_psql, if_neg hval, if_neg (by simp [hd]),
        if_neg (by simp [hc]), if_pos hi]
    · constructor
      · intro hok
        rw [run_sql_via_psql, if_neg hval] at hok
        by_cases hd : d.exit_status = 0
        · rw [if_neg (by simp [hd])] at hok
          by_cases hc : c.exit_status = 0
          · rw [if_neg (by simp [hc])] at hok
            by_cases hi : i.exit_status = 0
            · exact ⟨hd, hc, hi⟩
            · rw [if_pos hi] at hok
              exact absurd hok (by simp)
          · rw [if_pos hc] at hok
            exact absurd hok (by simp)
        · rw [if_pos hd] at hok
          exact absurd hok (by simp)
      · rintro ⟨hd, hc, hi⟩
        rw [run_sql_via_psql, if_neg hval, if_neg (by simp [hd]),
          if_neg (by simp [hc]), if_neg (by simp [hi])]

/-- C8, witness: the theorem applied at concrete command outcomes. -/
theorem claim_C8_witness :
    (∃ pre, (run_pg_dump_into_zip true "db" "user"
        { exit_status := 1, stderr := "boom" } [1, 2]).2 =
      Except.error (pre ++ "boom")) ∧
    (∃ pre, run_sql_via_psql "db" "user"
        { exit_status := 0, stderr := "" } { exit_status := 0, stderr := "" }
        { exit_status := 2, stderr := "bad sql" } =
      Except.error (pre ++ "bad sql")) ∧
    run_sql_via_psql "db" "user"
      { exit_status := 0, stderr := "" } { exit_status := 0, stderr := "" }
      { exit_status := 0, stderr := "" } = Except.ok () := by
  refine ⟨?_, ?_, ?_⟩
  · exact (claim_C8_db_exit_status.1 "db" "user"
      { exit_status := 1, stderr := "boom" } [1, 2] (by decide) (by decide)).1
      (by decide)
  · exact ((claim_C8_db_exit_status.2 "db" "user"
      { exit_status := 0, stderr := "" } { exit_status := 0, stderr := "" }
      { exit_status := 2, stderr := "bad sql" } (by decide)
      (by decide)).2.2.1) rfl rfl (by decide)
  · exact ((claim_C8_db_exit_status.2 "db" "user"
      { exit_status := 0, stderr := "" } { exit_status := 0, stderr := "" }
      { exit_status := 0, stderr := "" } (by decide)
      (by decide)).2.2.2).mpr ⟨rfl, rfl, rfl⟩

/-! ## Claim C10 -/

theorem mem_ensure_remote_dirs (path : String) (op : ROp)
    (hop : op ∈ ensure_remote_dirs path) : ∃ p, op = ROp.mkdir p := by
  unfold ensure_remote_dirs at hop
  rcases List.mem_append.mp hop with hop | hop
  · by_cases hab : absPrefix path.data = []
    · rw [if_pos hab] at hop
      simp at hop
    · rw [if_neg hab] at hop
      rcases List.mem_singleton.mp hop with rfl
      exact ⟨_, rfl⟩
  · rcases List.mem_map.mp hop with ⟨ps, _, rfl⟩
    exact ⟨_, rfl⟩

theorem processZipEntry_ops_shape (routes : List FileRoute) (base : String)
    (strip : Bool) (top : Option String) (e : ZipEntry)
    (hdet : detect_zip_unix_mode e.external_attr = (none, false)) :
    ∀ op ∈ processZipEntry routes base strip top e,
      (∃ p, op = ROp.mkdir p) ∨ (∃ p t, op = ROp.utime p t) ∨
        (∃ p d, op = ROp.writeFile p d) := by
  intro op hop
  cases heff : effectiveRel strip top e.filename with
  | none =>
    simp only [processZipEntry, heff] at hop
    simp at hop
  | some pr =>
    obtain ⟨is_dir, rel⟩ := pr
    simp only [processZipEntry, heff] at hop
    by_cases hsafe : is_safe_join (resolve_destination rel routes base).1
        (resolve_destination rel routes base).2
    · rw [if_neg (by simp [hsafe])] at hop
      cases is_dir with
      | true =>
        rw [if_pos rfl] at hop
        rw [hdet] at hop
        simp only [set_times_and_mode, List.append_nil] at hop
        exact Or.inl (mem_ensure_remote_dirs _ _ hop)
      | false =>
        rw [if_neg (by simp)] at hop
        rw [hdet] at hop
        simp only [Bool.false_eq_true, if_false, set_times_and_mode] at hop
        rcases List.mem_append.mp hop with hop | hop
        · exact Or.inl (mem_ensure_remote_dirs _ _ hop)
        · rcases List.mem_cons.mp hop with rfl | hop
          · exact Or.inr (Or.inr ⟨_, _, rfl⟩)
          · cases mt : e.mtimeOpt with
            | none =>
              rw [mt] at hop
              simp at hop
            | some tval =>
              rw [mt] at hop
              simp only [List.nil_append] at hop
              rcases List.mem_singleton.mp hop with rfl
              exact Or.inr (Or.inl ⟨_, _, rfl⟩)
    · rw [if_pos (by simp [hsafe])] at hop
      simp at hop

/-- C10: for a zip entry whose external-attributes field has zero upper 16
bits, `detect_zip_unix_mode` returns no unix mode and classifies the entry
as not a symlink, and consequently extraction of such an entry never
performs a `chmod` (the metadata step skips permissions when the mode is
absent) and never creates a symlink: every emitted operation is a `mkdir`,
`utime` or `writeFile`. -/
theorem claim_C10_zero_ext_attr (attr : Nat) (h : attr >>> 16 = 0) :
    detect_zip_unix_mode attr = (none, false) ∧
    (∀ (routes : List FileRoute) (base : String) (strip : Bool)
       (top : Option String) (name : String) (payload : List Nat)
       (mt : Option Nat) (op : ROp),
      op ∈ processZipEntry routes base strip top
        { filename := name, external_attr := attr, payload := payload,
          mtimeOpt := mt } →
      (∀ p m, op ≠ ROp.chmod p m) ∧ (∀ tgt p, op ≠ ROp.symlink tgt p)) := by
  have hdet : detect_zip_unix_mode attr = (none, false) := by
    simp [detect_zip_unix_mode, h]
  refine ⟨hdet, ?_⟩
  intro routes base strip top name payload mt op hop
  have hs := processZipEntry_ops_shape routes base strip top
    { filename := name, external_attr := attr, payload := payload,
      mtimeOpt := mt } hdet op hop
  rcases hs with ⟨p, rfl⟩ | ⟨p, t, rfl⟩ | ⟨p, d, rfl⟩
  all_goals exact ⟨fun _ _ => by simp, fun _ _ => by simp⟩

/-- C10, witness: the theorem applied to a concrete entry with zero upper
attribute bits. -/
theorem claim_C10_witness :
    detect_zip_unix_mode 0 = (none, false) ∧
    ((∀ p m, ROp.mkdir "/" ≠ ROp.chmod p m) ∧
      (∀ tgt p, ROp.mkdir "/" ≠ ROp.symlink tgt p)) := by
  refine ⟨(claim_C10_zero_ext_attr 0 (by decide)).1, ?_⟩
  exact (claim_C10_zero_ext_attr 0 (by decide)).2 [] "/dst" false none
    "a.txt" [1] none (ROp.mkdir "/") (by decide)

/-! ## Claim C5 -/

theorem shiftLeft16_shiftRight16 (a : Nat) : (a <<< 16) >>> 16 = a := by
  rw [Nat.shiftLeft_eq, Nat.shiftRight_eq_div_pow]
  exact Nat.mul_div_cancel _ (by norm_num)

/-- Decoding the packed external attributes of a regular file recovers its
permission bits (the low 12 mode bits) and classifies it as not a symlink. -/
theorem detect_packed_mode (m : Nat) (hmode : m &&& 0o170000 = 0o100000) :
    detect_zip_unix_mode ((m &&& 0xFFFF) <<< 16) = (some (m % 4096), false) := by
  have htype : (m &&& 0xFFFF) &&& 0o170000 = 0o100000 := by
    have h1 : (0xFFFF : Nat) &&& 0o170000 = 0o170000 := by decide
    rw [Nat.and_assoc, h1, hmode]
  have hm0 : (m &&& 0xFFFF) ≠ 0 := by
    intro h0
    rw [h0] at htype
    simp at htype
  have hperm : (m &&& 0xFFFF) &&& 0o7777 = m % 4096 := by
    have h1 : (0xFFFF : Nat) &&& 0o7777 = 0o7777 := by decide
    rw [Nat.and_assoc, h1]
    have h2 := Nat.and_pow_two_sub_one_eq_mod m 12
    norm_num at h2
    exact h2
  simp only [detect_zip_unix_mode, shiftLeft16_shiftRight16]
  rw [if_pos hm0, hperm, htype]
  simp

/-- Processing one regular (non-directory, non-symlink-named) entry under an
absolute root with no routes and no stripping: the parent directories are
created, then the branch chosen by `detect_zip_unix_mode` runs against the
remote path joined from the root and the *normalized* member name (so
arcnames such as `./name`, which the pull writer produces for files directly
under the remote root, are covered). -/
theorem processZipEntry_noroutes_file (root : String) (e : ZipEntry)
    (hroot : root.data.head? = some '/')
    (hne : normalize_arcpath e.filename ≠ "")
    (hlast : (normalize_arcpath e.filename).data.getLast? ≠ some '/') :
    processZipEntry [] root false none e =
      ensure_remote_dirs
        (pppParent (String.mk (joinpathChars root.data
          (normalize_arcpath e.filename).data))) ++
      (if (detect_zip_unix_mode e.external_attr).2 then
        [ROp.remove (String.mk (joinpathChars root.data
           (normalize_arcpath e.filename).data)),
         ROp.symlink (utf8DecodeSE e.payload)
           (String.mk (joinpathChars root.data
             (normalize_arcpath e.filename).data))]
      else
        ROp.writeFile (String.mk (joinpathChars root.data
              (normalize_arcpath e.filename).data))
            (chunkedCopy e.payload) ::
          set_times_and_mode
            (String.mk (joinpathChars root.data
              (normalize_arcpath e.filename).data))
            e.mtimeOpt (detect_zip_unix_mode e.external_attr).1) := by
  have hdirb : ((normalize_arcpath e.filename).data.getLast? == some '/') =
      false := beq_eq_false_iff_ne.mpr hlast
  have heff : effectiveRel false none e.filename =
      some (false, normalize_arcpath e.filename) := by
    simp only [effectiveRel]
    rw [if_neg hne]
    simp only [hdirb, Bool.false_eq_true, if_false]
    rw [if_neg hne]
  have hres : resolve_destination (normalize_arcpath e.filename) [] root =
      (root, normalize_arcpath e.filename) := by
    simp only [resolve_destination, resolveLoop, normalize_arcpath_idem]
  have hhead : (normalize_arcpath e.filename).data.head? ≠ some '/' :=
    normalize_arcpath_head e.filename
  have hsafe : is_safe_join root (normalize_arcpath e.filename) = true :=
    is_safe_join_of_relative root _ hroot hhead
  simp only [processZipEntry, heff, hres]
  rw [if_neg (by simp [hsafe])]
  rw [if_neg (by simp)]

/-- C5: the pull writer packs the remote unix mode into the zip external
attributes as `(st_mode & 0xFFFF) << 16` and stores the streamed bytes
unchanged; pushing the entry back out writes exactly the original bytes to
the destination and issues a `chmod` whose mode equals the originally
captured permission bits — the low 12 bits of the remote `st_mode`
(`st_mode % 4096`).  The hypotheses say the entry is a regular file
(file-type bits `S_IFREG`), the *normalized* arcname is non-empty with no
trailing slash, and the destination root is absolute; this covers every
arcname the pull writer produces, including the `./name` arcnames it emits
for files directly under the remote root. -/
theorem claim_C5_roundtrip (st_mode : Nat) (mt : Option Nat) (arc : String)
    (content : List Nat) (root : String)
    (hmode : st_mode &&& 0o170000 = 0o100000)
    (hroot : root.data.head? = some '/')
    (hne : normalize_arcpath arc ≠ "")
    (hlast : (normalize_arcpath arc).data.getLast? ≠ some '/') :
    (add_file_to_zip_from_sftp st_mode mt arc content).external_attr =
      (st_mode &&& 0xFFFF) <<< 16 ∧
    (add_file_to_zip_from_sftp st_mode mt arc content).payload = content ∧
    detect_zip_unix_mode
      (add_file_to_zip_from_sftp st_mode mt arc content).external_attr =
      (some (st_mode % 4096), false) ∧
    processZipEntry [] root false none
        (add_file_to_zip_from_sftp st_mode mt arc content) =
      ensure_remote_dirs
        (pppParent (String.mk (joinpathChars root.data
          (normalize_arcpath arc).data))) ++
      (ROp.writeFile (String.mk (joinpathChars root.data
          (normalize_arcpath arc).data)) content ::
        set_times_and_mode (String.mk (joinpathChars root.data
          (normalize_arcpath arc).data)) mt (some (st_mode % 4096))) ∧
    ROp.chmod (String.mk (joinpathChars root.data
        (normalize_arcpath arc).data)) (st_mode % 4096) ∈
      processZipEntry [] root false none
        (add_file_to_zip_from_sftp st_mode mt arc content) := by
  have hpay : (add_file_to_zip_from_sftp st_mode mt arc content).payload =
      content := by
    simp only [add_file_to_zip_from_sftp]
    exact chunkedCopy_eq content
  have hdet : detect_zip_unix_mode
      (add_file_to_zip_from_sftp st_mode mt arc content).external_attr =
      (some (st_mode % 4096), false) := by
    simp only [add_file_to_zip_from_sftp]
    exact detect_packed_mode st_mode hmode
  have hproc := processZipEntry_noroutes_file root
    (add_file_to_zip_from_sftp st_mode mt arc content) hroot hne hlast
  rw [hdet] at hproc
  simp only [if_neg (by simp : ¬ ((some (st_mode % 4096), false).2 = true)),
    hpay, chunkedCopy_eq] at hproc
  have hmod : st_mode % 4096 &&& 0o7777 = st_mode % 4096 := by
    have h2 := Nat.and_pow_two_sub_one_eq_mod (st_mode % 4096) 12
    norm_num at h2
    rw [h2]
  refine ⟨rfl, hpay, hdet, hproc, ?_⟩
  rw [hproc]
  refine List.mem_append_right _ (List.mem_cons_of_mem _ ?_)
  simp only [add_file_to_zip_from_sftp, set_times_and_mode, hmod]
  exact List.mem_append_right _ (by simp)

/-- C5, witness: the round trip applied to a concrete file below a
subdirectory and to a file directly under the remote root, whose arcname the
pull writer emits as `./f.txt`. -/
theorem claim_C5_witness :
    (add_file_to_zip_from_sftp 0o100644 (some 7) "docs/readme.txt"
      [10, 20, 30]).payload = [10, 20, 30] ∧
    processZipEntry [] "/dst" false none
        (add_file_to_zip_from_sftp 0o100644 (some 7) "docs/readme.txt"
          [10, 20, 30]) =
      ensure_remote_dirs
        (pppParent (String.mk (joinpathChars "/dst".data
          (normalize_arcpath "docs/readme.txt").data))) ++
      (ROp.writeFile (String.mk (joinpathChars "/dst".data
          (normalize_arcpath "docs/readme.txt").data)) [10, 20, 30] ::
        set_times_and_mode (String.mk (joinpathChars "/dst".data
          (normalize_arcpath "docs/readme.txt").data)) (some 7)
          (some (0o100644 % 4096))) ∧
    ROp.chmod (String.mk (joinpathChars "/dst".data
        (normalize_arcpath "./f.txt").data)) (0o100644 % 4096) ∈
      processZipEntry [] "/dst" false none
        (add_file_to_zip_from_sftp 0o100644 none "./f.txt" [1]) := by
  have h1 := claim_C5_roundtrip 0o100644 (some 7) "docs/readme.txt"
    [10, 20, 30] "/dst" (by decide) (by decide) (by decide) (by decide)
  have h2 := claim_C5_roundtrip 0o100644 none "./f.txt" [1] "/dst"
    (by decide) (by decide) (by decide) (by decide)
  exact ⟨h1.2.1, h1.2.2.2.1, h2.2.2.2.2⟩

/-! ## Claim C6 -/

/-- C6: for a zip entry whose external-attributes upper bits carry the
symlink file-type marker (`S_IFLNK = 0o120000`), extraction decodes the
entry payload as the link-target text (UTF-8 with the lossless
`surrogateescape` fallback, modelled by `utf8DecodeSE` over code points),
removes any pre-existing node at the destination and creates a symlink
there — and writes no regular file for that entry.  The hypotheses say the
arcname is a non-empty normalized relative path without a trailing slash
and the destination root is absolute. -/
theorem claim_C6_symlink (root arc : String) (attr : Nat)
    (payload : List Nat) (mt : Option Nat)
    (hroot : root.data.head? = some '/')
    (hnorm : normalize_arcpath arc = arc) (hne : arc ≠ "")
    (hlast : arc.data.getLast? ≠ some '/')
    (hlink : (attr >>> 16) &&& 0o170000 = 0o120000) :
    (detect_zip_unix_mode attr).2 = true ∧
    processZipEntry [] root false none
        { filename := arc, external_attr := attr, payload := payload,
          mtimeOpt := mt } =
      ensure_remote_dirs
        (pppParent (String.mk (joinpathChars root.data arc.data))) ++
      [ROp.remove (String.mk (joinpathChars root.data arc.data)),
       ROp.symlink (utf8DecodeSE payload)
         (String.mk (joinpathChars root.data arc.data))] ∧
    (∀ p d, ROp.writeFile p d ∉ processZipEntry [] root false none
        { filename := arc, external_attr := attr, payload := payload,
          mtimeOpt := mt }) := by
  have hdet2 : (detect_zip_unix_mode attr).2 = true := by
    simp [detect_zip_unix_mode, hlink]
  have hproc := processZipEntry_noroutes_file root
    { filename := arc, external_attr := attr, payload := payload,
      mtimeOpt := mt } hroot (by rw [hnorm]; exact hne)
    (by rw [hnorm]; exact hlast)
  rw [hnorm] at hproc
  rw [hdet2] at hproc
  simp only [if_true] at hproc
  refine ⟨hdet2, hproc, ?_⟩
  intro p d hmem
  rw [hproc] at hmem
  rcases List.mem_append.mp hmem with hmem | hmem
  · rcases mem_ensure_remote_dirs _ _ hmem with ⟨q, hq⟩
    exact absurd hq (by simp)
  · rcases List.mem_cons.mp hmem with hq | hmem
    · exact absurd hq (by simp)
    · rcases List.mem_singleton.mp hmem with hq
      exact absurd hq (by simp)

/-- C6, witness: an entry encoded as a symlink with target
`../shared/lib.so` produces, after extraction, a symlink operation (not a
file write) carrying that exact target text. -/
theorem claim_C6_witness :
    processZipEntry [] "/dst" false none
      { filename := "lib/x.so", external_attr := 0o120777 <<< 16,
        payload := strCodes "../shared/lib.so", mtimeOpt := none } =
      [ROp.mkdir "/", ROp.mkdir "/dst", ROp.mkdir "/dst/lib",
       ROp.remove "/dst/lib/x.so",
       ROp.symlink (strCodes "../shared/lib.so") "/dst/lib/x.so"] ∧
    utf8DecodeSE (strCodes "../shared/lib.so") =
      strCodes "../shared/lib.so" := by
  have h := claim_C6_symlink "/dst" "lib/x.so" (0o120777 <<< 16)
    (strCodes "../shared/lib.so") none (by decide) (by decide) (by decide)
    (by decide) (by decide)
  exact ⟨h.2.1.trans (by decide), by decide⟩

/-! ## Claim C3 -/

/-- The directory-like entries of a listing, in listing order, paired with
their children: exactly the entries whose names land in `dirs` and that the
recursion of `sftp_walk` expands. -/
def dirEntriesOf (es : List (String × RNode)) :
    List (String × List (String × RNode)) :=
  es.filterMap (fun p =>
    match p.2 with
    | RNode.dir cs => if p.1 = "." ∨ p.1 = ".." then none else some (p.1, cs)
    | RNode.linkDir cs => some (p.1, cs)
    | _ => none)

theorem walkSubdirs_eq_flatten (top : String) (es : List (String × RNode)) :
    walkSubdirs top es =
      ((dirEntriesOf es).map (fun q =>
        walkEntries (String.mk (joinpathChars top.data q.1.data)) q.2)).flatten := by
  induction es with
  | nil => simp [walkSubdirs, dirEntriesOf]
  | cons p rest ih =>
    obtain ⟨name, n⟩ := p
    cases n with
    | dir cs =>
      by_cases hdot : name = "." ∨ name = ".."
      · simp [walkSubdirs, dirEntriesOf, hdot, ih]
      · simp [walkSubdirs, dirEntriesOf, hdot, ih]
    | linkDir cs => simp [walkSubdirs, dirEntriesOf, ih]
    | file => simp [walkSubdirs, dirEntriesOf, ih]
    | linkFile => simp [walkSubdirs, dirEntriesOf, ih]
    | linkBroken => simp [walkSubdirs, dirEntriesOf, ih]
    | other => simp [walkSubdirs, dirEntriesOf, ih]

theorem sorted_in_walk :
    ∀ (top : String) (es : List (String × RNode)),
      ∀ tr ∈ walkEntries top es,
        List.Sorted strLe tr.2.1 ∧ List.Sorted strLe tr.2.2 := by
  refine walkEntries.induct
    (fun top es => ∀ tr ∈ walkEntries top es,
      List.Sorted strLe tr.2.1 ∧ List.Sorted strLe tr.2.2)
    (fun top es => ∀ tr ∈ walkSubdirs top es,
      List.Sorted strLe tr.2.1 ∧ List.Sorted strLe tr.2.2) ?_ ?_ ?_
  · intro top es h2 tr htr
    rw [walkEntries] at htr
    rcases List.mem_cons.mp htr with rfl | htr
    · exact ⟨List.sorted_insertionSort strLe _, List.sorted_insertionSort strLe _⟩
    · exact h2 tr htr
  · intro top tr htr
    rw [walkSubdirs] at htr
    simp at htr
  · intro top name n rest hmatch hrest tr htr
    cases n with
    | dir cs =>
      simp only [walkSubdirs] at htr
      rcases List.mem_append.mp htr with htr | htr
      · by_cases hdot : name = "." ∨ name = ".."
        · rw [if_pos hdot] at htr
          simp at htr
        · rw [if_neg hdot] at htr
          exact hmatch tr htr
      · exact hrest tr htr
    | linkDir cs =>
      simp only [walkSubdirs] at htr
      rcases List.mem_append.mp htr with htr | htr
      · exact hmatch tr htr
      · exact hrest tr htr
    | file =>
      simp only [walkSubdirs] at htr
      exact hrest tr (by simpa using htr)
    | linkFile =>
      simp only [walkSubdirs] at htr
      exact hrest tr (by simpa using htr)
    | linkBroken =>
      simp only [walkSubdirs] at htr
      exact hrest tr (by simpa using htr)
    | other =>
      simp only [walkSubdirs] at htr
      exact hrest tr (by simpa using htr)

/-- C3: the walker yields the root triple first and then, in listing order,
the recursive walks of exactly the directory-like entries (pre-order); the
subdirectory-name and file-name lists of every yielded triple are sorted
lexicographically; the walk is a pure function of the tree, so walking the
same unchanged tree twice yields an identical sequence; and a non-existent
root (`none`, the `FileNotFoundError` case) yields the empty sequence
rather than an error. -/
theorem claim_C3_walker :
    (∀ (es : List (String × RNode)) (top : String),
      sftp_walk (some es) top =
        (top, sortStrings (dirNamesOf es), sortStrings (fileNamesOf es)) ::
          ((dirEntriesOf es).map (fun q =>
            sftp_walk (some q.2)
              (String.mk (joinpathChars top.data q.1.data)))).flatten) ∧
    (∀ (fs : Option (List (String × RNode))) (top : String)
       (tr : WalkTriple), tr ∈ sftp_walk fs top →
      List.Sorted strLe tr.2.1 ∧ List.Sorted strLe tr.2.2) ∧
    (∀ (fs1 fs2 : Option (List (String × RNode))) (top : String),
      fs1 = fs2 → sftp_walk fs1 top = sftp_walk fs2 top) ∧
    (∀ top : String, sftp_walk none top = []) := by
  refine ⟨?_, ?_, ?_, fun top => rfl⟩
  · intro es top
    rw [sftp_walk, walkEntries, walkSubdirs_eq_flatten]
    rfl
  · intro fs top tr htr
    cases fs with
    | none => simp [sftp_walk] at htr
    | some es => exact sorted_in_walk top es tr htr
  · intro fs1 fs2 top h
    rw [h]

/-- C3, witness: the sortedness and determinism parts applied to a concrete
tree (whose listing order `b` before `a` is deliberately unsorted). -/
theorem claim_C3_witness :
    (List.Sorted strLe (["a", "b"] : List String) ∧
      List.Sorted strLe ([] : List String)) ∧
    sftp_walk (some [("b", RNode.dir [("f.txt", RNode.file)]),
        ("a", RNode.dir [])]) "/r" =
      sftp_walk (some [("b", RNode.dir [("f.txt", RNode.file)]),
        ("a", RNode.dir [])]) "/r" := by
  constructor
  · exact claim_C3_walker.2.1
      (some [("b", RNode.dir [("f.txt", RNode.file)]), ("a", RNode.dir [])])
      "/r" ("/r", ["a", "b"], [])
      (by simp only [sftp_walk, walkEntries, walkSubdirs]; decide)
  · exact claim_C3_walker.2.2.1
      (some [("b", RNode.dir [("f.txt", RNode.file)]), ("a", RNode.dir [])])
      (some [("b", RNode.dir [("f.txt", RNode.file)]), ("a", RNode.dir [])])
      "/r" rfl

end BlBackup
